import Mathlib

/-!
Verification of three Go concurrency primitives from chapter 7 of the
repository: a bounded resource pool (`pool` package), a deadline/interrupt
task runner (`runner` package), and a fixed-size worker pool (`work`
package).  Each Go construct is shallowly embedded as a pure Lean state
machine; goroutine channels become explicit lists with capacity and
closed flags, and externally observable events (factory invocations,
resource disposals, task executions) are recorded in ghost fields so the
specification's claims can be stated.
-/

/- ### ResourcePool (src/chapter7/patterns/pool/pool.go)

The Go `Pool` struct holds a mutex, a buffered channel `resources` of
capacity `size`, a `factory` callback and a `closed` flag.  We model the
channel as the list `buf` (its buffered contents, FIFO), the capacity
`cap`, and `chClosed` (whether `close(p.resources)` has run).  Resources
are identified by natural-number ids.  Ghost fields: `held` (resources
handed to callers and not yet released), `disposed` (the sequence of
`r.Close()` invocations), and `factoryCalls` (number of factory
invocations). -/

/-- Errors surfaced by `Pool.Acquire`: `ErrPoolClosed`, or an arbitrary
error produced by the factory callback. -/
inductive PErr where
  | poolClosed
  | factoryErr (code : Nat)
deriving DecidableEq, Repr

/-- State of a `pool.Pool` together with ghost observation fields. -/
structure PoolState where
  buf : List Nat
  cap : Nat
  closed : Bool
  chClosed : Bool
  held : List Nat
  disposed : List Nat
  factoryCalls : Nat
deriving DecidableEq, Repr

/-- `pool.New(fn, size)`: rejects `size = 0` with an error, otherwise
returns a pool with an empty buffer of capacity `size`. -/
def poolNew (size : Nat) : Except String PoolState :=
  if size = 0 then Except.error "Size value too small."
  else Except.ok { buf := [], cap := size, closed := false, chClosed := false,
                   held := [], disposed := [], factoryCalls := 0 }

/-- `Pool.Acquire`: the Go `select` first tries a non-blocking receive from
`p.resources`.  A buffered value is delivered even after close; an empty
closed channel delivers `ok = false` (hence `ErrPoolClosed`); otherwise the
`default` branch calls `p.factory()` and returns its result verbatim.
`fac` maps the number of prior factory invocations to this invocation's
`(resource, error)` outcome. -/
def Acquire (fac : Nat → Except PErr Nat) (s : PoolState) :
    Except PErr Nat × PoolState :=
  match s.buf with
  | r :: rest => (Except.ok r, { s with buf := rest, held := r :: s.held })
  | [] =>
    if s.chClosed then (Except.error PErr.poolClosed, s)
    else
      match fac s.factoryCalls with
      | Except.ok r =>
          (Except.ok r,
           { s with factoryCalls := s.factoryCalls + 1, held := r :: s.held })
      | Except.error e =>
          (Except.error e, { s with factoryCalls := s.factoryCalls + 1 })

/-- `Pool.Release(r)` (under the mutex): if `p.closed`, dispose `r`
immediately; otherwise the `select` tries a non-blocking send into the
buffer, disposing `r` in the `default` branch when the buffer is full.
The result of `r.Close()` is discarded; `dFail` models which disposals
would fail and is deliberately unused, mirroring the ignored error. -/
def Release (_dFail : Nat → Bool) (r : Nat) (s : PoolState) : PoolState :=
  if s.closed then
    { s with disposed := s.disposed ++ [r], held := s.held.erase r }
  else if s.buf.length < s.cap then
    { s with buf := s.buf ++ [r], held := s.held.erase r }
  else
    { s with disposed := s.disposed ++ [r], held := s.held.erase r }

/-- `Pool.Close` (under the mutex): a no-op when already closed; otherwise
sets `closed`, closes the channel, and drains the buffer disposing every
resource in it.  Disposal errors (`dFail`) are discarded. -/
def PoolClose (_dFail : Nat → Bool) (s : PoolState) : PoolState :=
  if s.closed then s
  else
    { s with closed := true, chClosed := true, buf := [],
             disposed := s.disposed ++ s.buf }

/-- The invocation-counting factory of the specification's scenarios: the
`n`-th invocation succeeds and returns the fresh id `n`. -/
def countingFactory (n : Nat) : Except PErr Nat := Except.ok n

/-- A client-visible operation on the pool. -/
inductive PoolOp where
  | acquire
  | release (r : Nat)
  | close
deriving DecidableEq, Repr

/-- One client operation against the pool, with the counting factory.
A `release r` by a caller that does not hold `r` is a precondition
violation (undefined behavior per the spec) and is not modelled: the
step only fires when `r` is held. -/
def poolStep (op : PoolOp) (s : PoolState) : PoolState :=
  match op with
  | .acquire => (Acquire countingFactory s).2
  | .release r => if r ∈ s.held then Release (fun _ => false) r s else s
  | .close => PoolClose (fun _ => false) s

/-- Run a sequence of client operations. -/
def poolRun (ops : List PoolOp) (s : PoolState) : PoolState :=
  ops.foldl (fun t op => poolStep op t) s

/-- C1 — `Acquire` case analysis: a nonempty buffer yields its first
resource with no error; an empty open buffer invokes the factory exactly
once and returns its result verbatim; an empty closed buffer yields
`ErrPoolClosed`.  (`Acquire` is a total function: it never blocks.) -/
theorem acquire_cases (fac : Nat → Except PErr Nat) (s : PoolState) :
    (∀ r rest, s.buf = r :: rest →
      (Acquire fac s).1 = Except.ok r ∧ (Acquire fac s).2.buf = rest ∧
      (Acquire fac s).2.factoryCalls = s.factoryCalls) ∧
    (s.buf = [] → s.chClosed = false →
      (Acquire fac s).1 = fac s.factoryCalls ∧
      (Acquire fac s).2.factoryCalls = s.factoryCalls + 1) ∧
    (s.buf = [] → s.chClosed = true →
      (Acquire fac s).1 = Except.error PErr.poolClosed ∧
      (Acquire fac s).2 = s) := by
  refine ⟨?_, ?_, ?_⟩
  · intro r rest hbuf
    simp [Acquire, hbuf]
  · intro hbuf hcl
    cases hfac : fac s.factoryCalls <;> simp [Acquire, hbuf, hcl, hfac]
  · intro hbuf hcl
    simp [Acquire, hbuf, hcl]

/-- Witness for C1 at a concrete pool state. -/
theorem acquire_cases_witness :
    (Acquire countingFactory
      { buf := [5], cap := 2, closed := false, chClosed := false,
        held := [], disposed := [], factoryCalls := 0 }).1 =
      Except.ok 5 :=
  ((acquire_cases countingFactory
    { buf := [5], cap := 2, closed := false, chClosed := false,
      held := [], disposed := [], factoryCalls := 0 }).1 5 [] rfl).1

/-- C8 — `Release` case analysis: on a closed pool the resource is
disposed and not cached; on an open pool below capacity it is appended to
the buffer and not disposed; on an open pool at capacity it is disposed
and the buffer is unchanged.  (`Release` is a total function: it never
blocks on the buffer.) -/
theorem release_cases (dFail : Nat → Bool) (r : Nat) (s : PoolState) :
    (s.closed = true →
      (Release dFail r s).disposed = s.disposed ++ [r] ∧
      (Release dFail r s).buf = s.buf) ∧
    (s.closed = false → s.buf.length < s.cap →
      (Release dFail r s).buf = s.buf ++ [r] ∧
      (Release dFail r s).disposed = s.disposed) ∧
    (s.closed = false → ¬ s.buf.length < s.cap →
      (Release dFail r s).disposed = s.disposed ++ [r] ∧
      (Release dFail r s).buf = s.buf) := by
  refine ⟨?_, ?_, ?_⟩
  · intro hcl
    simp [Release, hcl]
  · intro hcl hlt
    simp [Release, hcl, hlt]
  · intro hcl hlt
    simp [Release, hcl, hlt]

/-- Witness for C8 at a concrete pool state. -/
theorem release_cases_witness :
    (Release (fun _ => false) 7
      { buf := [], cap := 1, closed := false, chClosed := false,
        held := [7], disposed := [], factoryCalls := 1 }).buf = [7] :=
  (((release_cases (fun _ => false) 7
    { buf := [], cap := 1, closed := false, chClosed := false,
      held := [7], disposed := [], factoryCalls := 1 }).2.1)
    rfl (by decide)).1

/-- C9 — `Close` is idempotent: the first call marks the pool closed,
closes the channel and disposes exactly the buffered resources; a call on
an already-closed pool leaves the state entirely unchanged (hence
`PoolClose ∘ PoolClose = PoolClose`); and the result never depends on
disposal failures, which are swallowed. -/
theorem close_idempotent (dFail dFail2 : Nat → Bool) (s : PoolState) :
    (s.closed = false →
      (PoolClose dFail s).closed = true ∧
      (PoolClose dFail s).chClosed = true ∧
      (PoolClose dFail s).buf = [] ∧
      (PoolClose dFail s).disposed = s.disposed ++ s.buf) ∧
    (s.closed = true → PoolClose dFail s = s) ∧
    PoolClose dFail (PoolClose dFail s) = PoolClose dFail s ∧
    PoolClose dFail s = PoolClose dFail2 s := by
  refine ⟨?_, ?_, ?_, ?_⟩
  · intro hcl
    simp [PoolClose, hcl]
  · intro hcl
    simp [PoolClose, hcl]
  · by_cases hcl : s.closed <;> simp [PoolClose, hcl]
  · rfl

/-- Witness for C9 at a concrete pool state. -/
theorem close_idempotent_witness :
    (PoolClose (fun _ => false)
      { buf := [3, 4], cap := 2, closed := false, chClosed := false,
        held := [], disposed := [], factoryCalls := 5 }).disposed =
      [3, 4] :=
  ((close_idempotent (fun _ => false) (fun _ => true)
    { buf := [3, 4], cap := 2, closed := false, chClosed := false,
      held := [], disposed := [], factoryCalls := 5 }).1 rfl).2.2.2

/-- The multiset of all resource ids ever produced and still tracked:
buffered, held by callers, or disposed. -/
def allIds (s : PoolState) : Multiset Nat :=
  (s.buf : Multiset Nat) + (s.held : Multiset Nat) + (s.disposed : Multiset Nat)

/-- The pool's trace invariant: the buffer respects capacity; every
resource id occurs at most once across buffer, callers and the disposal
record (so no resource is disposed twice); every tracked id was produced
by the factory; the closed flag and the channel's closed state agree; and
a closed pool has an empty (drained) buffer. -/
def PoolInv (s : PoolState) : Prop :=
  s.buf.length ≤ s.cap ∧
  (allIds s).Nodup ∧
  (∀ x ∈ allIds s, x < s.factoryCalls) ∧
  s.closed = s.chClosed ∧
  (s.closed = true → s.buf = [])

lemma poolInv_step (op : PoolOp) (s : PoolState) (h : PoolInv s) :
    PoolInv (poolStep op s) := by
  obtain ⟨hcap, hnd, hlt, hcc, hclbuf⟩ := h
  cases op with
  | acquire =>
    cases hbuf : s.buf with
    | cons r rest =>
      have hstep : poolStep PoolOp.acquire s =
          { s with buf := rest, held := r :: s.held } := by
        simp [poolStep, Acquire, hbuf]
      rw [hstep]
      have hall : allIds { s with buf := rest, held := r :: s.held } =
          allIds s := by
        simp [allIds, hbuf, Multiset.cons_add, Multiset.add_cons]
      refine ⟨?_, ?_, ?_, hcc, ?_⟩
      · show rest.length ≤ s.cap
        have h1 := hcap
        rw [hbuf] at h1
        simp only [List.length_cons] at h1
        omega
      · show (allIds _).Nodup
        rw [hall]
        exact hnd
      · intro x hx
        rw [hall] at hx
        exact hlt x hx
      · intro hcl
        exact absurd (hclbuf hcl) (by simp [hbuf])
    | nil =>
      by_cases hch : s.chClosed
      · have hstep : poolStep PoolOp.acquire s = s := by
          simp [poolStep, Acquire, hbuf, hch]
        rw [hstep]
        exact ⟨hcap, hnd, hlt, hcc, hclbuf⟩
      · have hstep : poolStep PoolOp.acquire s =
            { s with factoryCalls := s.factoryCalls + 1,
                     held := s.factoryCalls :: s.held } := by
          simp [poolStep, Acquire, hbuf, hch, countingFactory]
        rw [hstep]
        have hall : allIds
            { s with factoryCalls := s.factoryCalls + 1,
                     held := s.factoryCalls :: s.held } =
            s.factoryCalls ::ₘ allIds s := by
          simp [allIds, Multiset.cons_add, Multiset.add_cons]
        refine ⟨hcap, ?_, ?_, hcc, fun h => hclbuf h⟩
        · show (allIds _).Nodup
          rw [hall]
          exact Multiset.nodup_cons.mpr
            ⟨fun hmem => absurd (hlt _ hmem) (Nat.lt_irrefl _), hnd⟩
        · intro x hx
          rw [hall] at hx
          show x < s.factoryCalls + 1
          rcases Multiset.mem_cons.mp hx with h | h
          · omega
          · exact Nat.lt_succ_of_lt (hlt x h)
  | release r =>
    by_cases hmem : r ∈ s.held
    · have hall2 : ((s.held.erase r : List Nat) : Multiset Nat) + {r} =
          (s.held : Multiset Nat) := by
        rw [← Multiset.coe_erase, add_comm, Multiset.singleton_add]
        exact Multiset.cons_erase (by simpa using hmem)
      by_cases hcl : s.closed
      · have hstep : poolStep (PoolOp.release r) s =
            { s with disposed := s.disposed ++ [r],
                     held := s.held.erase r } := by
          simp [poolStep, hmem, Release, hcl]
        rw [hstep]
        have hall : allIds
            { s with disposed := s.disposed ++ [r],
                     held := s.held.erase r } = allIds s := by
          simp only [allIds, ← Multiset.coe_add, Multiset.coe_singleton]
          rw [← hall2]
          abel
        exact ⟨hcap, by rw [show (allIds _) = allIds s from hall]; exact hnd,
          fun x hx => hlt x (by rwa [show (allIds _) = allIds s from hall]
            at hx), hcc, fun h => hclbuf h⟩
      · by_cases hroom : s.buf.length < s.cap
        · have hstep : poolStep (PoolOp.release r) s =
              { s with buf := s.buf ++ [r], held := s.held.erase r } := by
            simp [poolStep, hmem, Release, hcl, hroom]
          rw [hstep]
          have hall : allIds
              { s with buf := s.buf ++ [r],
                       held := s.held.erase r } = allIds s := by
            simp only [allIds, ← Multiset.coe_add, Multiset.coe_singleton]
            rw [← hall2]
            abel
          refine ⟨?_, ?_, ?_, hcc, ?_⟩
          · show (s.buf ++ [r]).length ≤ s.cap
            simp only [List.length_append, List.length_singleton]
            omega
          · show (allIds _).Nodup
            rw [hall]
            exact hnd
          · intro x hx
            rw [hall] at hx
            exact hlt x hx
          · intro h
            exact absurd h (by simpa using hcl)
        · have hstep : poolStep (PoolOp.release r) s =
              { s with disposed := s.disposed ++ [r],
                       held := s.held.erase r } := by
            simp [poolStep, hmem, Release, hcl, hroom]
          rw [hstep]
          have hall : allIds
              { s with disposed := s.disposed ++ [r],
                       held := s.held.erase r } = allIds s := by
            simp only [allIds, ← Multiset.coe_add, Multiset.coe_singleton]
            rw [← hall2]
            abel
          refine ⟨hcap, ?_, ?_, hcc, fun h => hclbuf h⟩
          · show (allIds _).Nodup
            rw [hall]
            exact hnd
          · intro x hx
            rw [hall] at hx
            exact hlt x hx
    · have hstep : poolStep (PoolOp.release r) s = s := by
        simp [poolStep, hmem]
      rw [hstep]
      exact ⟨hcap, hnd, hlt, hcc, hclbuf⟩
  | close =>
    by_cases hcl : s.closed
    · have hstep : poolStep PoolOp.close s = s := by
        simp [poolStep, PoolClose, hcl]
      rw [hstep]
      exact ⟨hcap, hnd, hlt, hcc, hclbuf⟩
    · have hstep : poolStep PoolOp.close s =
          { s with closed := true, chClosed := true, buf := [],
                   disposed := s.disposed ++ s.buf } := by
        simp [poolStep, PoolClose, hcl]
      rw [hstep]
      have hall : allIds
          { s with closed := true, chClosed := true, buf := [],
                   disposed := s.disposed ++ s.buf } = allIds s := by
        simp only [allIds, ← Multiset.coe_add, Multiset.coe_nil, zero_add]
        abel
      refine ⟨by simp, ?_, ?_, rfl, fun _ => rfl⟩
      · show (allIds _).Nodup
        rw [hall]
        exact hnd
      · intro x hx
        rw [hall] at hx
        exact hlt x hx

lemma poolInv_run (ops : List PoolOp) (s : PoolState) (h : PoolInv s) :
    PoolInv (poolRun ops s) := by
  induction ops generalizing s with
  | nil => exact h
  | cons op rest ih => exact ih _ (poolInv_step op s h)

lemma poolStep_closed_mono (op : PoolOp) (s : PoolState)
    (h : s.closed = true) : (poolStep op s).closed = true := by
  cases op with
  | acquire =>
    cases hbuf : s.buf with
    | cons r rest => simp [poolStep, Acquire, hbuf, h]
    | nil =>
      by_cases hch : s.chClosed
      · simp [poolStep, Acquire, hbuf, hch, h]
      · cases hfac : countingFactory s.factoryCalls <;>
          simp [poolStep, Acquire, hbuf, hch, hfac, h]
  | release r =>
    by_cases hmem : r ∈ s.held
    · by_cases hroom : s.buf.length < s.cap <;>
        simp [poolStep, hmem, Release, h, hroom]
    · simp [poolStep, hmem, h]
  | close => simp [poolStep, PoolClose, h]

lemma poolRun_closed_mono (ops : List PoolOp) (s : PoolState)
    (h : s.closed = true) : (poolRun ops s).closed = true := by
  induction ops generalizing s with
  | nil => exact h
  | cons op rest ih => exact ih _ (poolStep_closed_mono op s h)

lemma poolInv_new (size : Nat) (s : PoolState)
    (h : poolNew size = Except.ok s) : PoolInv s ∧ s.cap = size := by
  by_cases hz : size = 0
  · simp [poolNew, hz] at h
  · simp [poolNew, hz] at h
    subst h
    exact ⟨⟨by simp, by simp [allIds], by simp [allIds], rfl,
      fun _ => rfl⟩, rfl⟩

lemma poolRun_cap (ops : List PoolOp) (s : PoolState) :
    (poolRun ops s).cap = s.cap := by
  induction ops generalizing s with
  | nil => rfl
  | cons op rest ih =>
    have : (poolStep op s).cap = s.cap := by
      cases op with
      | acquire =>
        cases hbuf : s.buf with
        | cons r rest2 => simp [poolStep, Acquire, hbuf]
        | nil =>
          by_cases hch : s.chClosed
          · simp [poolStep, Acquire, hbuf, hch]
          · cases hfac : countingFactory s.factoryCalls <;>
              simp [poolStep, Acquire, hbuf, hch, hfac]
      | release r =>
        by_cases hmem : r ∈ s.held
        · by_cases hcl : s.closed
          · simp [poolStep, hmem, Release, hcl]
          · by_cases hroom : s.buf.length < s.cap <;>
              simp [poolStep, hmem, Release, hcl, hroom]
        · simp [poolStep, hmem]
      | close => by_cases hcl : s.closed <;> simp [poolStep, PoolClose, hcl]
    rw [poolRun, List.foldl_cons, ← poolRun]
    rw [ih (poolStep op s), this]

/-- C4 — invariant of the pool under every client operation sequence from
a freshly constructed pool: the idle buffer never exceeds the capacity
fixed at construction, no resource is ever disposed twice, and once the
pool is closed its buffer stays empty forever (no resource is inserted
again), no matter what further operations run. -/
theorem pool_invariant (size : Nat) (s0 : PoolState)
    (h0 : poolNew size = Except.ok s0) (ops : List PoolOp) :
    (poolRun ops s0).buf.length ≤ size ∧
    (poolRun ops s0).disposed.Nodup ∧
    ((poolRun ops s0).closed = true →
      ∀ more, (poolRun more (poolRun ops s0)).buf = []) := by
  obtain ⟨hinv0, hcap0⟩ := poolInv_new size s0 h0
  have hinv := poolInv_run ops s0 hinv0
  obtain ⟨hcap, hnd, hlt, hcc, hclbuf⟩ := hinv
  refine ⟨?_, ?_, ?_⟩
  · have := poolRun_cap ops s0
    omega
  · have h1 : ((poolRun ops s0).disposed : Multiset Nat).Nodup := by
      have := hnd
      simp only [allIds] at this
      exact (Multiset.nodup_add.mp this).2.1
    exact Multiset.coe_nodup.mp h1
  · intro hclosed more
    have hinv2 := poolInv_run more _ (poolInv_run ops s0 hinv0)
    have hcl2 := poolRun_closed_mono more _ hclosed
    exact hinv2.2.2.2.2 hcl2

/-- Witness for C4 at a concrete pool and operation sequence. -/
theorem pool_invariant_witness :
    (poolRun [PoolOp.acquire, PoolOp.acquire, PoolOp.release 0,
       PoolOp.close]
      { buf := [], cap := 1, closed := false, chClosed := false,
        held := [], disposed := [], factoryCalls := 0 }).disposed.Nodup :=
  (pool_invariant 1
    { buf := [], cap := 1, closed := false, chClosed := false,
      held := [], disposed := [], factoryCalls := 0 }
    rfl
    [PoolOp.acquire, PoolOp.acquire, PoolOp.release 0,
     PoolOp.close]).2.1

lemma acq_run (k : Nat) (s : PoolState) (hbuf : s.buf = [])
    (hch : s.chClosed = false) :
    poolRun (List.replicate k PoolOp.acquire) s =
      { s with held := (List.range' s.factoryCalls k).reverse ++ s.held,
               factoryCalls := s.factoryCalls + k } := by
  induction k generalizing s with
  | zero => simp [poolRun]
  | succ k ih =>
    have hstep : poolStep PoolOp.acquire s =
        { s with factoryCalls := s.factoryCalls + 1,
                 held := s.factoryCalls :: s.held } := by
      simp [poolStep, Acquire, hbuf, hch, countingFactory]
    have ih2 := ih { s with factoryCalls := s.factoryCalls + 1,
                            held := s.factoryCalls :: s.held } hbuf hch
    rw [List.replicate_succ, poolRun, List.foldl_cons, ← poolRun, hstep,
      ih2]
    rw [List.range'_succ, List.reverse_cons]
    simp [List.append_assoc, Nat.add_assoc, Nat.add_comm 1 k]

lemma rel_run (rs : List Nat) (s : PoolState) (hcl : s.closed = false)
    (hnd : rs.Nodup) (hsub : ∀ r ∈ rs, r ∈ s.held)
    (hlen : s.buf.length + rs.length ≤ s.cap) :
    (poolRun (rs.map PoolOp.release) s).buf = s.buf ++ rs ∧
    (poolRun (rs.map PoolOp.release) s).factoryCalls = s.factoryCalls ∧
    (poolRun (rs.map PoolOp.release) s).closed = false ∧
    (poolRun (rs.map PoolOp.release) s).chClosed = s.chClosed ∧
    (poolRun (rs.map PoolOp.release) s).disposed = s.disposed ∧
    (poolRun (rs.map PoolOp.release) s).cap = s.cap := by
  induction rs generalizing s with
  | nil => simp [poolRun, hcl]
  | cons r rest ih =>
    have hmem : r ∈ s.held := hsub r (by simp)
    have hroom : s.buf.length < s.cap := by
      simp only [List.length_cons] at hlen
      omega
    have hstep : poolStep (PoolOp.release r) s =
        { s with buf := s.buf ++ [r], held := s.held.erase r } := by
      simp [poolStep, hmem, Release, hcl, hroom]
    have hsub2 : ∀ x ∈ rest, x ∈ s.held.erase r := by
      intro x hx
      have hne : x ≠ r := fun he => (List.nodup_cons.mp hnd).1 (he ▸ hx)
      exact (List.mem_erase_of_ne hne).mpr (hsub x (by simp [hx]))
    have hlen2 : (s.buf ++ [r]).length + rest.length ≤ s.cap := by
      simp only [List.length_append, List.length_cons, List.length_nil]
        at hlen ⊢
      omega
    have := ih { s with buf := s.buf ++ [r], held := s.held.erase r }
      hcl (List.nodup_cons.mp hnd).2 hsub2 hlen2
    rw [List.map_cons, poolRun, List.foldl_cons, ← poolRun, hstep]
    refine ⟨?_, this.2.1, this.2.2.1, this.2.2.2.1, this.2.2.2.2.1,
      this.2.2.2.2.2⟩
    rw [this.1]
    simp [List.append_assoc]

lemma acq_from_buf (k : Nat) (s : PoolState) (hlen : k ≤ s.buf.length) :
    (poolRun (List.replicate k PoolOp.acquire) s).factoryCalls =
      s.factoryCalls ∧
    (poolRun (List.replicate k PoolOp.acquire) s).buf = s.buf.drop k := by
  induction k generalizing s with
  | zero => simp [poolRun]
  | succ k ih =>
    cases hbuf : s.buf with
    | nil => rw [hbuf] at hlen; simp at hlen
    | cons r rest =>
      have hstep : poolStep PoolOp.acquire s =
          { s with buf := rest, held := r :: s.held } := by
        simp [poolStep, Acquire, hbuf]
      have hlen2 : k ≤ rest.length := by
        rw [hbuf] at hlen
        simp only [List.length_cons] at hlen
        omega
      have := ih { s with buf := rest, held := r :: s.held } hlen2
      rw [List.replicate_succ, poolRun, List.foldl_cons, ← poolRun, hstep]
      exact ⟨this.1, by rw [this.2]; rfl⟩

/-- C7 — warm-cache scenario for a pool of capacity `C` with the
invocation-counting factory, starting from the fresh empty pool:
acquiring `C` resources invokes the factory exactly `C` times; releasing
all `C` leaves exactly `C` resources in the idle buffer with no further
factory calls; and `C` further acquisitions cause zero additional factory
invocations. -/
theorem pool_warm_cache (C : Nat) (s0 : PoolState)
    (h0 : poolNew C = Except.ok s0) :
    (poolRun (List.replicate C PoolOp.acquire) s0).factoryCalls = C ∧
    (poolRun ((List.range C).map PoolOp.release)
      (poolRun (List.replicate C PoolOp.acquire) s0)).buf.length = C ∧
    (poolRun ((List.range C).map PoolOp.release)
      (poolRun (List.replicate C PoolOp.acquire) s0)).factoryCalls = C ∧
    (poolRun (List.replicate C PoolOp.acquire)
      (poolRun ((List.range C).map PoolOp.release)
        (poolRun (List.replicate C PoolOp.acquire) s0))).factoryCalls =
      C := by
  by_cases hz : C = 0
  · simp [poolNew, hz] at h0
  · simp only [poolNew, hz, if_false, Except.ok.injEq] at h0
    subst h0
    rw [acq_run C _ rfl rfl]
    have hrel := rel_run (List.range C)
      { buf := [], cap := C, closed := false, chClosed := false,
        held := (List.range' 0 C).reverse ++ [], disposed := [],
        factoryCalls := 0 + C }
      rfl (List.nodup_range C)
      (by
        intro r hr
        simp only [List.append_nil, List.mem_reverse]
        simpa [List.range_eq_range'] using hr)
      (by simp)
    refine ⟨by simp, ?_, ?_, ?_⟩
    · rw [hrel.1]
      simp
    · rw [hrel.2.1]
      simp
    · have hlen : C ≤ (poolRun ((List.range C).map PoolOp.release)
          { buf := [], cap := C, closed := false, chClosed := false,
            held := (List.range' 0 C).reverse ++ [], disposed := [],
            factoryCalls := 0 + C }).buf.length := by
        rw [hrel.1]
        simp
      rw [(acq_from_buf C _ hlen).1, hrel.2.1]
      simp

/-- Witness for C7 at capacity 2. -/
theorem pool_warm_cache_witness :
    (poolRun ((List.range 2).map PoolOp.release)
      (poolRun (List.replicate 2 PoolOp.acquire)
        { buf := [], cap := 2, closed := false, chClosed := false,
          held := [], disposed := [], factoryCalls := 0 })).buf.length =
      2 :=
  (pool_warm_cache 2
    { buf := [], cap := 2, closed := false, chClosed := false,
      held := [], disposed := [], factoryCalls := 0 } rfl).2.1

/- ### TaskRunner (src/chapter7/patterns/runner/runner.go)

The Go `Runner` holds a buffered interrupt channel of capacity one fed by
`signal.Notify`, a completion channel, a one-shot timeout channel and the
task slice.  The interrupt source is the pair `IntrState`: `armed` is
whether `signal.Notify` registration is active (`signal.Stop` clears it),
`pending` is whether a signal sits in the buffered channel.  `run`
iterates the tasks in index order, checking `gotInterrupt` before each
task; task execution is recorded as the trace of indices passed to the
tasks.  The schedule `arrive` says whether an OS signal is delivered just
before the check preceding task `i`, i.e. after task `i-1` completes and
before task `i` begins.  `Start` races the worker's result against the
timeout channel; `timeoutWins` records which side of the `select` fires
first. -/

/-- The two error values of the runner package: `ErrTimeout` and
`ErrInterrupt`. -/
inductive RErr where
  | timeout
  | interrupt
deriving DecidableEq, Repr

/-- State of the OS interrupt source feeding the buffered channel. -/
structure IntrState where
  armed : Bool
  pending : Bool
deriving DecidableEq, Repr

/-- Delivery of an OS signal: enqueued only while the registration is
armed and the one-slot buffer is free; otherwise the signal is dropped. -/
def signalDeliver (s : IntrState) : IntrState :=
  if s.armed && !s.pending then { s with pending := true } else s

/-- `Runner.gotInterrupt`: non-blocking receive on the interrupt channel;
on success it calls `signal.Stop` (disarming the source) and reports
`true`, otherwise the `default` branch reports `false`. -/
def gotInterrupt (s : IntrState) : Bool × IntrState :=
  if s.pending then (true, { armed := false, pending := false })
  else (false, s)

/-- `Runner.run` over the remaining task indices: before each task the
interrupt check runs (after any signal scheduled to arrive at that
point); on interrupt it returns `ErrInterrupt` at once, otherwise the
task executes (appended to the trace) and the loop continues. -/
def runLoop (arrive : Nat → Bool) :
    List Nat → IntrState → List Nat → Option RErr × List Nat × IntrState
  | [], s, exec => (none, exec, s)
  | i :: rest, s, exec =>
    let s1 := if arrive i then signalDeliver s else s
    let g := gotInterrupt s1
    if g.1 then (some RErr.interrupt, exec, g.2)
    else runLoop arrive rest g.2 (exec ++ [i])

/-- `Runner.run` on the full task list `0 .. k-1`. -/
def runTasks (arrive : Nat → Bool) (k : Nat) (s : IntrState) :
    Option RErr × List Nat × IntrState :=
  runLoop arrive (List.range k) s []

/-- `Runner.Start`: the supervising `select` returns `ErrTimeout` when the
timeout channel fires first, and the worker's result otherwise. -/
def startRunner (timeoutWins : Bool) (runResult : Option RErr) :
    Option RErr :=
  if timeoutWins then some RErr.timeout else runResult

lemma runLoop_no_intr (arrive : Nat → Bool) (l₁ : List Nat)
    (l₂ : List Nat) (s : IntrState) (exec : List Nat)
    (hp : s.pending = false) (ha : ∀ j ∈ l₁, arrive j = false) :
    runLoop arrive (l₁ ++ l₂) s exec = runLoop arrive l₂ s (exec ++ l₁) := by
  induction l₁ generalizing exec with
  | nil => simp
  | cons i rest ih =>
    have hai : arrive i = false := ha i (by simp)
    have hstep : runLoop arrive ((i :: rest) ++ l₂) s exec =
        runLoop arrive (rest ++ l₂) s (exec ++ [i]) := by
      simp [runLoop, hai, gotInterrupt, hp]
    rw [hstep, ih (exec ++ [i]) (fun j hj => ha j (by simp [hj]))]
    simp

/-- C2 — with no interrupt observed and the deadline not elapsing, the
runner executes the tasks in index order `0 .. k-1`, each exactly once,
each passed its own index (the execution trace is exactly
`[0, 1, ..., k-1]`), and `Start` returns `nil`. -/
theorem runner_in_order (k : Nat) (arrive : Nat → Bool) (s : IntrState)
    (hp : s.pending = false) (ha : ∀ j, arrive j = false) :
    runTasks arrive k s = (none, List.range k, s) ∧
    startRunner false (runTasks arrive k s).1 = none := by
  have h := runLoop_no_intr arrive (List.range k) [] s [] hp
    (fun j _ => ha j)
  rw [runTasks, ← List.append_nil (List.range k), h]
  exact ⟨by simp [runLoop], by simp [runLoop, startRunner]⟩

/-- Witness for C2 with three tasks. -/
theorem runner_in_order_witness :
    runTasks (fun _ => false) 3 ⟨true, false⟩ =
      (none, [0, 1, 2], ⟨true, false⟩) :=
  (runner_in_order 3 (fun _ => false) ⟨true, false⟩ rfl
    (fun _ => rfl)).1

/-- C5 — an interrupt delivered after task `i` completes and before task
`i+1` begins makes `Start` return `ErrInterrupt` with exactly tasks
`0 .. i` executed (task `i+1` and all later tasks never run), and the
consumed interrupt disarms the source so no further interrupt can be
delivered or observed. -/
theorem runner_interrupt (k i : Nat) (arrive : Nat → Bool)
    (hik : i + 1 < k) (ha1 : ∀ j ≤ i, arrive j = false)
    (ha2 : arrive (i + 1) = true) :
    runTasks arrive k ⟨true, false⟩ =
      (some RErr.interrupt, List.range (i + 1), ⟨false, false⟩) ∧
    startRunner false (runTasks arrive k ⟨true, false⟩).1 =
      some RErr.interrupt ∧
    (i + 1) ∉ (runTasks arrive k ⟨true, false⟩).2.1 ∧
    signalDeliver ⟨false, false⟩ = ⟨false, false⟩ ∧
    gotInterrupt ⟨false, false⟩ = (false, ⟨false, false⟩) := by
  have hsplit : List.range k =
      List.range (i + 1) ++ List.range' (i + 1) (k - (i + 1)) := by
    rw [List.range_eq_range', List.range_eq_range']
    have h2 := List.range'_append 0 (i + 1) (k - (i + 1)) 1
    rw [show 0 + 1 * (i + 1) = i + 1 by omega] at h2
    rw [show k - (i + 1) + (i + 1) = k by omega] at h2
    exact h2.symm
  have htail : List.range' (i + 1) (k - (i + 1)) =
      (i + 1) :: List.range' (i + 2) (k - (i + 2)) := by
    rw [show k - (i + 1) = (k - (i + 2)) + 1 by omega, List.range'_succ]
  have hmain : runTasks arrive k ⟨true, false⟩ =
      (some RErr.interrupt, List.range (i + 1), ⟨false, false⟩) := by
    rw [runTasks, hsplit,
      runLoop_no_intr arrive (List.range (i + 1)) _ _ [] rfl
        (fun j hj => ha1 j (Nat.lt_succ_iff.mp (List.mem_range.mp hj))),
      htail]
    simp [runLoop, ha2, signalDeliver, gotInterrupt]
  refine ⟨hmain, by rw [hmain]; rfl, ?_, rfl, rfl⟩
  rw [hmain]
  simp

/-- Witness for C5: interrupt between task 0 and task 1 of three tasks. -/
theorem runner_interrupt_witness :
    runTasks (fun j => decide (j = 1)) 3 ⟨true, false⟩ =
      (some RErr.interrupt, [0], ⟨false, false⟩) :=
  (runner_interrupt 3 0 (fun j => decide (j = 1)) (by decide)
    (fun j hj => by simp; omega) (by decide)).1

lemma runLoop_no_timeout (arrive : Nat → Bool) (l : List Nat)
    (s : IntrState) (exec : List Nat) :
    (runLoop arrive l s exec).1 = none ∨
    (runLoop arrive l s exec).1 = some RErr.interrupt := by
  induction l generalizing s exec with
  | nil => exact Or.inl rfl
  | cons i rest ih =>
    rw [runLoop]
    by_cases hg : (gotInterrupt (if arrive i then signalDeliver s
        else s)).1
    · simp [hg]
    · simp [hg]
      exact ih _ _

/-- C6 — when the deadline event fires before the worker completes,
`Start` returns `ErrTimeout` regardless of the worker's progress; and the
worker itself only ever produces `nil` or `ErrInterrupt`, so `ErrTimeout`
and `ErrInterrupt` are the only possible non-`nil` returns of `Start`. -/
theorem runner_timeout (timeoutWins : Bool) (arrive : Nat → Bool)
    (k : Nat) (s : IntrState) :
    (timeoutWins = true →
      startRunner timeoutWins (runTasks arrive k s).1 =
        some RErr.timeout) ∧
    ((runTasks arrive k s).1 = none ∨
      (runTasks arrive k s).1 = some RErr.interrupt) ∧
    (startRunner timeoutWins (runTasks arrive k s).1 = none ∨
      startRunner timeoutWins (runTasks arrive k s).1 =
        some RErr.timeout ∨
      startRunner timeoutWins (runTasks arrive k s).1 =
        some RErr.interrupt) := by
  have hrun := runLoop_no_timeout arrive (List.range k) s []
  refine ⟨fun ht => by simp [startRunner, ht], hrun, ?_⟩
  cases timeoutWins with
  | true => exact Or.inr (Or.inl rfl)
  | false =>
    rcases hrun with h | h
    · exact Or.inl (by simpa [startRunner, runTasks] using h)
    · exact Or.inr (Or.inr (by simpa [startRunner, runTasks] using h))

/-- Witness for C6 with the deadline firing on a two-task run. -/
theorem runner_timeout_witness :
    startRunner true (runTasks (fun _ => false) 2 ⟨true, false⟩).1 =
      some RErr.timeout :=
  (runner_timeout true (fun _ => false) 2 ⟨true, false⟩).1 rfl

/-- C10 — a runner with an empty task list performs no interrupt checks:
`run` returns `nil` with an empty execution trace and the interrupt state
untouched, even if an interrupt is already pending, so `Start` (when the
deadline has not fired) returns `nil` and never `ErrInterrupt`. -/
theorem runner_empty_tasks (arrive : Nat → Bool) (s : IntrState) :
    runTasks arrive 0 s = (none, [], s) ∧
    startRunner false (runTasks arrive 0 s).1 = none ∧
    startRunner false (runTasks arrive 0 s).1 ≠ some RErr.interrupt := by
  refine ⟨rfl, rfl, ?_⟩
  intro h
  exact Option.noConfusion h

/- ### WorkerPool (the `work` package)

The Go `work.Pool` holds an unbuffered channel `work` of `Worker` items
and a `sync.WaitGroup`.  `New(maxGoroutines)` adds `maxGoroutines` to the
wait group and starts that many goroutines, each looping
`for w := range p.work { w.Task() }` then calling `wg.Done()`.  `Run`
sends on the channel (a rendezvous with an idle worker, since the channel
is unbuffered), `Shutdown` closes the channel and waits on the wait
group.  We model this as a small-step transition relation over the pool
state: each worker is idle (blocked receiving), busy executing an item,
or exited; `wg` mirrors the wait-group counter; `pending` holds the items
the caller still intends to submit (the claim's precondition that no
`Run` is concurrent with or after `Shutdown` appears as the guard that
`close` fires only once all submissions have been handed off). -/

/-- Status of one worker goroutine. -/
inductive WStatus where
  | idle
  | busy (item : Nat)
  | exited
deriving DecidableEq, Repr

/-- Whether a worker goroutine has not yet exited its receive loop. -/
def isLive : WStatus → Bool
  | WStatus.exited => false
  | _ => true

/-- Items currently being executed by busy workers. -/
def busyItems (ws : List WStatus) : List Nat :=
  ws.filterMap (fun w => match w with
    | WStatus.busy x => some x
    | _ => none)

/-- Number of workers whose goroutine is still running. -/
def liveCount (ws : List WStatus) : Nat := (ws.filter isLive).length

/-- Global state of a `work.Pool` run: worker statuses, items not yet
submitted, whether `close(p.work)` has happened, the wait-group counter,
the trace of completed `Task()` executions, and whether `wg.Wait()` (the
tail of `Shutdown`) has returned. -/
structure WPState where
  workers : List WStatus
  pending : List Nat
  closed : Bool
  wg : Nat
  executed : List Nat
  shutdownDone : Bool
deriving DecidableEq, Repr

/-- `work.New(n)` with the caller intending to submit `items`:
`n` idle workers, wait-group counter `n`. -/
def wpNew (n : Nat) (items : List Nat) : WPState :=
  { workers := List.replicate n WStatus.idle, pending := items,
    closed := false, wg := n, executed := [], shutdownDone := false }

/-- One interleaving step of the pool and its caller: a rendezvous of
`Run` with an idle worker; a busy worker finishing its item's `Task()`;
an idle worker observing the closed channel, leaving its loop and calling
`wg.Done()`; the caller's `Shutdown` closing the channel (only after all
submissions, per the claim's precondition); and `wg.Wait()` returning
once the counter is zero. -/
inductive WPStep : WPState → WPState → Prop where
  | recv (s : WPState) (l₁ l₂ : List WStatus) (x : Nat) (rest : List Nat) :
      s.workers = l₁ ++ WStatus.idle :: l₂ → s.pending = x :: rest →
      s.closed = false →
      WPStep s { s with workers := l₁ ++ WStatus.busy x :: l₂,
                        pending := rest }
  | finish (s : WPState) (l₁ l₂ : List WStatus) (x : Nat) :
      s.workers = l₁ ++ WStatus.busy x :: l₂ →
      WPStep s { s with workers := l₁ ++ WStatus.idle :: l₂,
                        executed := s.executed ++ [x] }
  | exit (s : WPState) (l₁ l₂ : List WStatus) :
      s.workers = l₁ ++ WStatus.idle :: l₂ → s.closed = true →
      WPStep s { s with workers := l₁ ++ WStatus.exited :: l₂,
                        wg := s.wg - 1 }
  | close (s : WPState) :
      s.closed = false → s.pending = [] →
      WPStep s { s with closed := true }
  | wgwait (s : WPState) :
      s.closed = true → s.wg = 0 →
      WPStep s { s with shutdownDone := true }

/-- States reachable from a fresh pool of `n` workers with `items` to
submit. -/
def WPReach (n : Nat) (items : List Nat) (s : WPState) : Prop :=
  Relation.ReflTransGen WPStep (wpNew n items) s

/-- Inductive invariant of the worker-pool transition system. -/
def WPInv (n : Nat) (items : List Nat) (s : WPState) : Prop :=
  s.workers.length = n ∧
  s.wg = liveCount s.workers ∧
  (s.pending : Multiset Nat) + ↑(busyItems s.workers) + ↑s.executed =
    (items : Multiset Nat) ∧
  (s.closed = true → s.pending = []) ∧
  (s.shutdownDone = true → s.closed = true ∧ s.wg = 0)

lemma wpInv_step (n : Nat) (items : List Nat) {s t : WPState}
    (hstep : WPStep s t) (h : WPInv n items s) : WPInv n items t := by
  obtain ⟨hlen, hwg, hsum, hclp, hsd⟩ := h
  cases hstep with
  | recv l₁ l₂ x rest hw hp hc =>
    refine ⟨?_, ?_, ?_, ?_, ?_⟩
    · show (l₁ ++ WStatus.busy x :: l₂).length = n
      rw [hw] at hlen
      simpa using hlen
    · show s.wg = liveCount (l₁ ++ WStatus.busy x :: l₂)
      rw [hwg, hw]
      simp [liveCount, List.filter_append, List.filter_cons, isLive]
    · show (rest : Multiset Nat) +
          ↑(busyItems (l₁ ++ WStatus.busy x :: l₂)) + ↑s.executed =
          (items : Multiset Nat)
      rw [hw, hp] at hsum
      rw [← hsum]
      simp only [busyItems, List.filterMap_append, List.filterMap_cons]
      simp only [← Multiset.coe_add, ← Multiset.cons_coe,
        ← Multiset.singleton_add]
      abel
    · intro hcl
      exact absurd hcl (by simp [hc])
    · intro hsd2
      exact absurd (hsd hsd2).1 (by simp [hc])
  | finish l₁ l₂ x hw =>
    refine ⟨?_, ?_, ?_, ?_, ?_⟩
    · show (l₁ ++ WStatus.idle :: l₂).length = n
      rw [hw] at hlen
      simpa using hlen
    · show s.wg = liveCount (l₁ ++ WStatus.idle :: l₂)
      rw [hwg, hw]
      simp [liveCount, List.filter_append, List.filter_cons, isLive]
    · show (s.pending : Multiset Nat) +
          ↑(busyItems (l₁ ++ WStatus.idle :: l₂)) +
          ↑(s.executed ++ [x]) = (items : Multiset Nat)
      rw [hw] at hsum
      rw [← hsum]
      simp only [busyItems, List.filterMap_append, List.filterMap_cons]
      simp only [← Multiset.coe_add, ← Multiset.cons_coe,
        ← Multiset.singleton_add, Multiset.coe_singleton]
      abel
    · intro hcl
      exact hclp hcl
    · intro hsd2
      exact hsd hsd2
  | exit l₁ l₂ hw hc =>
    refine ⟨?_, ?_, ?_, ?_, ?_⟩
    · show (l₁ ++ WStatus.exited :: l₂).length = n
      rw [hw] at hlen
      simpa using hlen
    · show s.wg - 1 = liveCount (l₁ ++ WStatus.exited :: l₂)
      rw [hw] at hwg
      simp only [liveCount, List.filter_append, List.filter_cons,
        isLive] at hwg ⊢
      simp at hwg ⊢
      omega
    · show (s.pending : Multiset Nat) +
          ↑(busyItems (l₁ ++ WStatus.exited :: l₂)) + ↑s.executed =
          (items : Multiset Nat)
      rw [hw] at hsum
      rw [← hsum]
      simp [busyItems, List.filterMap_append, List.filterMap_cons]
    · intro hcl
      exact hclp hcl
    · intro hsd2
      have h0 := (hsd hsd2).2
      refine ⟨(hsd hsd2).1, ?_⟩
      show s.wg - 1 = 0
      omega
  | close hc hp =>
    exact ⟨hlen, hwg, hsum, fun _ => hp, fun hsd2 =>
      absurd (hsd hsd2).1 (by simp [hc])⟩
  | wgwait hc hw0 =>
    exact ⟨hlen, hwg, hsum, hclp, fun _ => ⟨hc, hw0⟩⟩

lemma liveCount_replicate_idle (n : Nat) :
    liveCount (List.replicate n WStatus.idle) = n := by
  induction n with
  | zero => rfl
  | succ n ih =>
    rw [List.replicate_succ]
    simp only [liveCount, List.filter_cons] at ih ⊢
    simp [isLive, ih]

lemma busyItems_replicate_idle (n : Nat) :
    busyItems (List.replicate n WStatus.idle) = [] := by
  induction n with
  | zero => rfl
  | succ n ih =>
    rw [List.replicate_succ]
    simp only [busyItems, List.filterMap_cons] at ih ⊢
    simp [ih]

lemma wpInv_new (n : Nat) (items : List Nat) :
    WPInv n items (wpNew n items) := by
  refine ⟨by simp [wpNew], ?_, ?_, ?_, ?_⟩
  · show n = liveCount (List.replicate n WStatus.idle)
    rw [liveCount_replicate_idle]
  · show (items : Multiset Nat) +
        ↑(busyItems (List.replicate n WStatus.idle)) +
        ↑([] : List Nat) = (items : Multiset Nat)
    rw [busyItems_replicate_idle]
    simp
  · intro hcl
    exact absurd hcl (by simp [wpNew])
  · intro hsd
    exact absurd hsd (by simp [wpNew])

lemma wpInv_reach (n : Nat) (items : List Nat) (s : WPState)
    (h : WPReach n items s) : WPInv n items s := by
  induction h with
  | refl => exact wpInv_new n items
  | tail hsteps hstep ih => exact wpInv_step n items hstep ih

lemma liveCount_eq_zero {ws : List WStatus} (h : liveCount ws = 0) :
    ∀ w ∈ ws, w = WStatus.exited := by
  intro w hw
  have hnil : ws.filter isLive = [] := List.length_eq_zero.mp h
  cases w with
  | exited => rfl
  | idle =>
    have hmem : WStatus.idle ∈ ws.filter isLive :=
      List.mem_filter.mpr ⟨hw, rfl⟩
    rw [hnil] at hmem
    exact absurd hmem (by simp)
  | busy x =>
    have hmem : WStatus.busy x ∈ ws.filter isLive :=
      List.mem_filter.mpr ⟨hw, rfl⟩
    rw [hnil] at hmem
    exact absurd hmem (by simp)

lemma busyItems_of_all_exited {ws : List WStatus}
    (h : ∀ w ∈ ws, w = WStatus.exited) : busyItems ws = [] := by
  induction ws with
  | nil => rfl
  | cons w rest ih =>
    have hw := h w (by simp)
    subst hw
    simp only [busyItems, List.filterMap_cons]
    exact ih fun y hy => h y (by simp [hy])

/-- C3 — worker-pool shutdown contract: in any execution of a pool of `n`
workers with `m` items submitted (no `Run` concurrent with or after
`Shutdown`), once `Shutdown` has returned the executed trace is a
permutation of the submitted items — every item executed exactly once
(`Nodup` is preserved) — all `n` worker goroutines have exited, and no
step from such a state can execute anything further. -/
theorem workpool_shutdown (n : Nat) (items : List Nat) (s : WPState)
    (hreach : WPReach n items s) (hdone : s.shutdownDone = true) :
    s.executed.Perm items ∧
    (items.Nodup → s.executed.Nodup) ∧
    (∀ w ∈ s.workers, w = WStatus.exited) ∧
    s.workers.length = n ∧
    (∀ t, WPStep s t → t.executed = s.executed ∧
      t.shutdownDone = true) := by
  obtain ⟨hlen, hwg, hsum, hclp, hsd⟩ := wpInv_reach n items s hreach
  obtain ⟨hcl, hwg0⟩ := hsd hdone
  have hall : ∀ w ∈ s.workers, w = WStatus.exited :=
    liveCount_eq_zero (by omega)
  have hperm : s.executed.Perm items := by
    rw [hclp hcl, busyItems_of_all_exited hall] at hsum
    simp only [Multiset.coe_nil, zero_add] at hsum
    exact Multiset.coe_eq_coe.mp hsum
  refine ⟨hperm, fun hnd => (hperm.nodup_iff).mpr hnd, hall, hlen, ?_⟩
  intro t hstep
  cases hstep with
  | recv l₁ l₂ x rest hw hp hc =>
    have := hall WStatus.idle (by simp [hw])
    exact WStatus.noConfusion this
  | finish l₁ l₂ x hw =>
    have := hall (WStatus.busy x) (by simp [hw])
    exact WStatus.noConfusion this
  | exit l₁ l₂ hw hc =>
    have := hall WStatus.idle (by simp [hw])
    exact WStatus.noConfusion this
  | close hc hp =>
    exact absurd hcl (by simp [hc])
  | wgwait hc hw0 =>
    exact ⟨rfl, rfl⟩

/-- Witness for C3: one worker, one item, run to completed shutdown. -/
theorem workpool_shutdown_witness :
    ({ workers := [WStatus.exited], pending := [], closed := true,
       wg := 0, executed := [5], shutdownDone := true } :
      WPState).executed.Perm [5] := by
  have h1 : WPStep (wpNew 1 [5])
      { workers := [WStatus.busy 5], pending := [], closed := false,
        wg := 1, executed := [], shutdownDone := false } :=
    WPStep.recv (wpNew 1 [5]) [] [] 5 [] rfl rfl rfl
  have h2 : WPStep
      { workers := [WStatus.busy 5], pending := [], closed := false,
        wg := 1, executed := [], shutdownDone := false }
      { workers := [WStatus.idle], pending := [], closed := false,
        wg := 1, executed := [5], shutdownDone := false } :=
    WPStep.finish _ [] [] 5 rfl
  have h3 : WPStep
      { workers := [WStatus.idle], pending := [], closed := false,
        wg := 1, executed := [5], shutdownDone := false }
      { workers := [WStatus.idle], pending := [], closed := true,
        wg := 1, executed := [5], shutdownDone := false } :=
    WPStep.close _ rfl rfl
  have h4 : WPStep
      { workers := [WStatus.idle], pending := [], closed := true,
        wg := 1, executed := [5], shutdownDone := false }
      { workers := [WStatus.exited], pending := [], closed := true,
        wg := 0, executed := [5], shutdownDone := false } :=
    WPStep.exit _ [] [] rfl rfl
  have h5 : WPStep
      { workers := [WStatus.exited], pending := [], closed := true,
        wg := 0, executed := [5], shutdownDone := false }
      { workers := [WStatus.exited], pending := [], closed := true,
        wg := 0, executed := [5], shutdownDone := true } :=
    WPStep.wgwait _ rfl rfl
  have hreach : WPReach 1 [5]
      { workers := [WStatus.exited], pending := [], closed := true,
        wg := 0, executed := [5], shutdownDone := true } :=
    Relation.ReflTransGen.tail (Relation.ReflTransGen.tail
      (Relation.ReflTransGen.tail (Relation.ReflTransGen.tail
        (Relation.ReflTransGen.tail Relation.ReflTransGen.refl h1)
        h2) h3) h4) h5
  exact (workpool_shutdown 1 [5] _ hreach rfl).1

/-- Witness for C10 with an interrupt already pending. -/
theorem runner_empty_tasks_witness :
    runTasks (fun _ => true) 0 ⟨true, true⟩ = (none, [], ⟨true, true⟩) :=
  (runner_empty_tasks (fun _ => true) ⟨true, true⟩).1
